import Mathlib

/-
Verification of the resumable, rate-limited batch-execution engine in
scripts/adapt/adapt_vignettes_batch.py (BanglaBiasFramework).

The embedding below translates the relevant Python functions into Lean:
  - extract_json            (lines 212-218)  : fence stripping over character lists
  - adapt_single_vignette   (lines 221-293)  : bounded retry loop with backoff,
    modelled with an outcome oracle giving the result of each external call
  - process_batch core loop (lines 412-457)  : fold over enumerated jobs with a
    completed-key set, result list, failed list and an event trace
  - load/save progress      (lines 309-335)  : state construction from a file image
  - merge_all_batches       (lines 338-378)  : concatenation of present batch outputs
-/

namespace BanglaAdapt

/-! ## Configuration constants (source lines 47, 57-60) -/

/-- Source line 47: MODEL_NAME = "gemini-2.0-flash". -/
def MODEL_NAME : String := "gemini-2.0-flash"

/-- Source line 57: DELAY_BETWEEN_REQUESTS = 8.0 seconds (integral, modelled as Nat). -/
def DELAY_BETWEEN_REQUESTS : Nat := 8

/-- Source line 58: MAX_RETRIES = 5. -/
def MAX_RETRIES : Nat := 5

/-- Source line 59: INITIAL_RETRY_DELAY = 60. -/
def INITIAL_RETRY_DELAY : Nat := 60

/-- Source line 60: MAX_RETRY_DELAY = 300. -/
def MAX_RETRY_DELAY : Nat := 300

/-! ## JSON objects as ordered association lists (Python dicts preserve insertion
order; assignment to an absent key appends, to a present key updates in place). -/

/-- A parsed JSON object: ordered key/value pairs, values kept abstract as strings. -/
def Obj : Type := List (String × String)

instance : DecidableEq Obj := by unfold Obj; infer_instance

/-- Python dict assignment r[k] = v: replace in place if the key exists, else append. -/
def setKey : Obj → String → String → Obj
  | [], k, v => [(k, v)]
  | (k0, v0) :: rest, k, v =>
    if k0 = k then (k0, v) :: rest else (k0, v0) :: setKey rest k v

/-- Python membership test k in r. -/
def hasKey (r : Obj) (k : String) : Bool := r.any (fun p => p.1 = k)

/-- The ordered key list of an object. -/
def keysOf (r : Obj) : List String := r.map Prod.fst

/-- Source line 254: the fields required of a response. -/
def requiredFields : List String := ["vignette_id", "question", "options", "answer"]

/-- Validation of source line 254: all required fields present. -/
def requiredOk (r : Obj) : Bool := requiredFields.all (hasKey r)

/-- Source lines 257-260: metadata augmentation of a validated response,
the category field from the vignette, the model field set to MODEL_NAME, and the timestamp field. -/
def augmentResult (r : Obj) (category timestamp : String) : Obj :=
  setKey (setKey (setKey r "category" category) "model" MODEL_NAME) "timestamp" timestamp

/-! ## The retry loop of adapt_single_vignette (source lines 245-293) -/

/-- Outcome of one external call followed by json parsing: the call either returns a
body that json.loads accepts (success, carrying the parsed object), raises an
HTTPError with a status code, raises json.JSONDecodeError, or raises any other
exception (URLError, timeout, the ValueError of call_gemini_api, ...). -/
inductive CallOutcome where
  | success (r : Obj)
  | httpError (code : Nat)
  | jsonError
  | otherError
deriving DecidableEq

/-- Classification of an attempt, following the except clauses of lines 264-291 and
the validation of lines 253-255: a parsed response missing a required field raises
ValueError, which is caught by the generic except clause (15 s sleep). -/
inductive AttemptClass where
  | ok (r : Obj)
  | rate
  | unavail
  | httpOther
  | jsonErr
  | generic
deriving DecidableEq

/-- Mapping a call outcome to the branch the source takes. -/
def classify : CallOutcome → AttemptClass
  | .success r => if requiredOk r then .ok r else .generic
  | .httpError code =>
    if code = 429 then .rate else if code = 503 then .unavail else .httpOther
  | .jsonError => .jsonErr
  | .otherError => .generic

/-- Result of the retry loop: the returned value (None on exhaustion), the list of
sleep durations performed inside the loop, and the number of call attempts made. -/
structure AdaptOutcome where
  result : Option Obj
  sleeps : List Nat
  calls : Nat
deriving DecidableEq

/-- The for-loop of lines 247-293.  Arguments: the oracle giving the outcome of the
call at each attempt index, the metadata inputs, the remaining number of loop
iterations, the current attempt index, and the current retry_delay.  The branches:
  - ok r: augment and return (lines 249-262);
  - 429: sleep min(retry_delay, MAX_RETRY_DELAY), double retry_delay (lines 265-270);
  - 503: sleep 30 (lines 271-274);
  - other HTTP code: return None on the last attempt without sleeping, else sleep 30
    (lines 275-279);
  - JSONDecodeError: return None on the last attempt, else sleep 10 (lines 281-285);
  - any other exception: return None on the last attempt, else sleep 15
    (lines 287-291).
Falling out of the loop returns None (line 293). -/
def adapt_go (outcomes : Nat → CallOutcome) (category timestamp : String) :
    Nat → Nat → Nat → AdaptOutcome
  | 0, _, _ => ⟨none, [], 0⟩
  | remaining + 1, attempt, retryDelay =>
    match classify (outcomes attempt) with
    | .ok r => ⟨some (augmentResult r category timestamp), [], 1⟩
    | .rate =>
      let w := min retryDelay MAX_RETRY_DELAY
      let rest := adapt_go outcomes category timestamp remaining (attempt + 1) (retryDelay * 2)
      ⟨rest.result, w :: rest.sleeps, rest.calls + 1⟩
    | .unavail =>
      let rest := adapt_go outcomes category timestamp remaining (attempt + 1) retryDelay
      ⟨rest.result, 30 :: rest.sleeps, rest.calls + 1⟩
    | .httpOther =>
      if remaining = 0 then ⟨none, [], 1⟩
      else
        let rest := adapt_go outcomes category timestamp remaining (attempt + 1) retryDelay
        ⟨rest.result, 30 :: rest.sleeps, rest.calls + 1⟩
    | .jsonErr =>
      if remaining = 0 then ⟨none, [], 1⟩
      else
        let rest := adapt_go outcomes category timestamp remaining (attempt + 1) retryDelay
        ⟨rest.result, 10 :: rest.sleeps, rest.calls + 1⟩
    | .generic =>
      if remaining = 0 then ⟨none, [], 1⟩
      else
        let rest := adapt_go outcomes category timestamp remaining (attempt + 1) retryDelay
        ⟨rest.result, 15 :: rest.sleeps, rest.calls + 1⟩

/-- Lines 245-247: retry_delay starts at INITIAL_RETRY_DELAY, the loop runs for
range(MAX_RETRIES).  Every invocation starts with a fresh retry_delay: the backoff
state is a local variable, so it resets for the next job. -/
def adapt_single_vignette (outcomes : Nat → CallOutcome) (category timestamp : String) :
    AdaptOutcome :=
  adapt_go outcomes category timestamp MAX_RETRIES 0 INITIAL_RETRY_DELAY

/-! ## Job enumeration (source lines 433-437) -/

/-- The nested loops of lines 433-436: outer over vignettes in input order, inner
over DEMOGRAPHIC_TEMPLATES in declaration order.  Items are represented by their
vignette_id, variants by their template name. -/
def enumJobs : List String → List String → List (String × String)
  | [], _ => []
  | i :: is, vs => vs.map (fun v => (i, v)) ++ enumJobs is vs

/-- Line 437: key = f-string of vignette_id, underscore, variant_type. -/
def keyOf (job : String × String) : String := job.1 ++ "_" ++ job.2

/-! ## The batch runner loop (source lines 412-457) -/

/-- Observable events of the runner loop: a job skipped because its key is already
completed (line 439-440), an attempted job (line 445), a commit of a success
(lines 448-450), and the fixed inter-request sleep (line 457). -/
inductive Event where
  | skipped (key : String)
  | attempt (key : String)
  | commit (key : String)
  | rateDelay
deriving DecidableEq

/-- The mutable state of process_batch: the completed-key set, the adaptations
list, the failed-key list, and the trace of observable events. -/
structure RunState where
  completed : Finset String
  adaptations : List Obj
  failed : List String
  trace : List Event

/-- One iteration of the inner loop body (lines 437-457) for a job key: skip if
the key is completed; otherwise attempt it through the oracle (which abstracts
adapt_single_vignette), committing on success (append result, add key, save) or
recording the key as failed, and in either attempted case sleeping the fixed
inter-request delay afterwards. -/
def processJob (oracle : String → Option Obj) (s : RunState) (key : String) : RunState :=
  if key ∈ s.completed then
    { s with trace := s.trace ++ [Event.skipped key] }
  else
    match oracle key with
    | some r =>
      { completed := insert key s.completed
        adaptations := s.adaptations ++ [r]
        failed := s.failed
        trace := s.trace ++ [Event.attempt key, Event.commit key, Event.rateDelay] }
    | none =>
      { s with
        failed := s.failed ++ [key]
        trace := s.trace ++ [Event.attempt key, Event.rateDelay] }

/-- The full nested loop of lines 433-457 over an enumerated job list. -/
def process_batch (oracle : String → Option Obj) (jobs : List (String × String))
    (s : RunState) : RunState :=
  jobs.foldl (fun acc job => processJob oracle acc (keyOf job)) s

/-- Lines 309-315 and 412-414: the state loaded at run start from a progress-file
image (None when the file does not exist, yielding empty collections; a crash
leaves the file at its last committed content).  completed becomes a Python set. -/
def load_batch_progress (file : Option (List String × List Obj)) : RunState :=
  match file with
  | none => ⟨∅, [], [], []⟩
  | some (c, a) => ⟨c.toFinset, a, [], []⟩

/-- Lines 318-335 and 450: the pair persisted at each commit,
(list(completed), adaptations).  Python set iteration order is unspecified, so
the key list is materialized in a canonical (sorted) order. -/
def save_batch_progress (s : RunState) : List String × List Obj :=
  (s.completed.sort (fun a b => a ≤ b), s.adaptations)

/-- The invariant of the ProgressRecord: as many completed keys as results. -/
def Inv (s : RunState) : Prop := s.completed.card = s.adaptations.length

/-- Keys of the attempt events of a trace, in order. -/
def attemptedKeys (t : List Event) : List String :=
  t.filterMap (fun e => match e with | Event.attempt k => some k | _ => none)

/-- Number of rate-limit sleeps in a trace. -/
def countDelay (t : List Event) : Nat :=
  (t.filter (fun e => match e with | Event.rateDelay => true | _ => false)).length

/-- Shape of the events one loop iteration appends: a skip alone, or an attempt
followed by a commit and the fixed delay, or an attempt followed by the delay. -/
def isJobBlock (b : List Event) : Prop :=
  (∃ k, b = [Event.skipped k]) ∨
  (∃ k, b = [Event.attempt k, Event.commit k, Event.rateDelay]) ∨
  (∃ k, b = [Event.attempt k, Event.rateDelay])

/-! ## extract_json (source lines 212-218) over character lists -/

/-- The backtick character. -/
def btick : Char := Char.ofNat 96

/-- Three backticks, the fence marker. -/
def tick3 : List Char := [btick, btick, btick]

/-- Python str.strip character class (whitespace). -/
def pyWS (c : Char) : Bool :=
  c = ' ' || c = '\t' || c = '\n' || c = '\r' || c = Char.ofNat 11 || c = Char.ofNat 12

/-- Strip leading whitespace. -/
def lstrip (s : List Char) : List Char := s.dropWhile pyWS

/-- Strip trailing whitespace. -/
def rstrip (s : List Char) : List Char := (s.reverse.dropWhile pyWS).reverse

/-- Python str.strip: remove leading and trailing whitespace. -/
def pstrip (s : List Char) : List Char := rstrip (lstrip s)

/-- Everything after the first newline, or None when there is no newline:
text.split with separator newline and maxsplit 1, index 1, guarded by the
containment test of line 216. -/
def afterFirstNewline : List Char → Option (List Char)
  | [] => none
  | c :: rest => if c = '\n' then some rest else afterFirstNewline rest

/-- Python substring containment test. -/
def containsSub (pat : List Char) : List Char → Bool
  | [] => pat.isPrefixOf ([] : List Char)
  | c :: rest => pat.isPrefixOf (c :: rest) || containsSub pat rest

/-- The suffix after the first occurrence of pat, scanning left to right. -/
def dropThroughFirst (pat : List Char) : List Char → Option (List Char)
  | [] => if pat.isEmpty then some [] else none
  | c :: rest =>
    if pat.isPrefixOf (c :: rest) then some ((c :: rest).drop pat.length)
    else dropThroughFirst pat rest

/-- Python text.rsplit at pat with maxsplit 1, index 0: everything before the last
occurrence of pat (the text itself when pat does not occur). -/
def rsplitBefore (pat s : List Char) : List Char :=
  match dropThroughFirst pat.reverse s.reverse with
  | some suffix => suffix.reverse
  | none => s

/-- Source lines 212-218: strip the text; if it starts with a fence, drop the
first line (or the three fence characters when there is no newline), then cut at
the last fence marker when one remains; strip again. -/
def extract_json (text : List Char) : List Char :=
  let t1 := pstrip text
  let t2 :=
    if tick3.isPrefixOf t1 then
      let a := match afterFirstNewline t1 with
               | some r => r
               | none => t1.drop 3
      if containsSub tick3 a then rsplitBefore tick3 a else a
    else t1
  pstrip t2

/-- A payload wrapped in a fenced code block: opening fence with an optional
language tag on the fence line, the payload, a closing fence. -/
def wrapFenced (tag P : List Char) : List Char :=
  tick3 ++ tag ++ ('\n' :: (P ++ ('\n' :: tick3)))

/-! ## merge_all_batches (source lines 338-378) -/

/-- Result of the merge pass: the concatenated adaptations, the batch numbers
reported as missing, and whether the final output and merge log were written
(the if of line 357 guards both writes). -/
structure MergeResult where
  merged : List Obj
  missing : List Nat
  wrote : Bool
deriving DecidableEq

/-- Line 347: the declaration order of BATCH_CONFIG keys. -/
def BATCH_KEYS : List Nat := [1, 2, 3]

/-- Lines 338-378: iterate over batches in declaration order; a present output
file extends the accumulator, a missing one is reported; the final output and the
merge log are written exactly when the accumulated list is nonempty. -/
def merge_all_batches (files : Nat → Option (List Obj)) (batches : List Nat) :
    MergeResult :=
  let p := batches.foldl
    (fun (acc : List Obj × List Nat) b =>
      match files b with
      | some l => (acc.1 ++ l, acc.2)
      | none => (acc.1, acc.2 ++ [b]))
    ([], [])
  ⟨p.1, p.2, !p.1.isEmpty⟩

/-! ## Helper lemmas on the runner loop -/

theorem processJob_skip (oracle : String → Option Obj) (s : RunState) (key : String)
    (h : key ∈ s.completed) :
    processJob oracle s key = { s with trace := s.trace ++ [Event.skipped key] } := by
  simp [processJob, h]

theorem processJob_success (oracle : String → Option Obj) (s : RunState) (key : String)
    (r : Obj) (h : key ∉ s.completed) (hr : oracle key = some r) :
    processJob oracle s key =
      { completed := insert key s.completed
        adaptations := s.adaptations ++ [r]
        failed := s.failed
        trace := s.trace ++ [Event.attempt key, Event.commit key, Event.rateDelay] } := by
  simp [processJob, h, hr]

theorem processJob_fail (oracle : String → Option Obj) (s : RunState) (key : String)
    (h : key ∉ s.completed) (hr : oracle key = none) :
    processJob oracle s key =
      { s with
        failed := s.failed ++ [key]
        trace := s.trace ++ [Event.attempt key, Event.rateDelay] } := by
  simp [processJob, h, hr]

theorem process_batch_cons (oracle : String → Option Obj) (job : String × String)
    (jobs : List (String × String)) (s : RunState) :
    process_batch oracle (job :: jobs) s =
      process_batch oracle jobs (processJob oracle s (keyOf job)) := rfl

/-! ## C6 helper lemmas: job enumeration -/

theorem enumJobs_length (items vs : List String) :
    (enumJobs items vs).length = items.length * vs.length := by
  induction items with
  | nil => simp [enumJobs]
  | cons i is ih =>
    simp [enumJobs, ih, Nat.succ_mul, Nat.add_comm]

theorem enumJobs_getElem (items vs : List String) (n m : Nat)
    (hn : n < items.length) (hm : m < vs.length) :
    (enumJobs items vs)[n * vs.length + m]? =
      some (items.get ⟨n, hn⟩, vs.get ⟨m, hm⟩) := by
  induction items generalizing n with
  | nil => simp at hn
  | cons i is ih =>
    cases n with
    | zero =>
      have hm2 : (0 : Nat) * vs.length + m < (vs.map (fun v => (i, v))).length := by
        simpa using hm
      rw [enumJobs, List.getElem?_append_left hm2]
      simp [List.getElem?_eq_getElem hm]
    | succ n =>
      have hlen : (vs.map (fun v => (i, v))).length = vs.length := by simp
      have hidx : (n + 1) * vs.length + m = vs.length + (n * vs.length + m) := by
        rw [Nat.succ_mul]; omega
      have hge : (vs.map (fun v => (i, v))).length ≤ (n + 1) * vs.length + m := by
        rw [hlen, hidx]; omega
      rw [enumJobs, List.getElem?_append_right hge, hlen, hidx]
      have hsub : vs.length + (n * vs.length + m) - vs.length = n * vs.length + m := by omega
      rw [hsub]
      have hn2 : n < is.length := by simpa using hn
      rw [ih n hn2]
      rfl

/-- C6: job enumeration is deterministic and exhaustive.  For every list of N
items and M variants, the enumerated job list has exactly N*M entries, and the
entry at position n*M + m is the pair of the n-th item with the m-th variant:
the outer loop runs over items in input order, the inner loop over variants in
declaration order, with no randomness. -/
theorem claim6_job_enumeration :
    ∀ (items variants : List String),
      (enumJobs items variants).length = items.length * variants.length ∧
      ∀ (n m : Nat) (hn : n < items.length) (hm : m < variants.length),
        (enumJobs items variants)[n * variants.length + m]? =
          some (items.get ⟨n, hn⟩, variants.get ⟨m, hm⟩) := by
  intro items variants
  exact ⟨enumJobs_length items variants, fun n m hn hm => enumJobs_getElem items variants n m hn hm⟩

/-- Witness for C6 at a concrete input: two items and two variants give four
jobs, and the job at index 1*2+1 pairs the second item with the second variant. -/
theorem claim6_job_enumeration_witness :
    (enumJobs ["PILOT-1", "PILOT-2"] ["uwm", "upf"]).length = 2 * 2 ∧
    (enumJobs ["PILOT-1", "PILOT-2"] ["uwm", "upf"])[1 * 2 + 1]? =
      some ("PILOT-2", "upf") := by
  constructor
  · exact (claim6_job_enumeration ["PILOT-1", "PILOT-2"] ["uwm", "upf"]).1
  · have h := (claim6_job_enumeration ["PILOT-1", "PILOT-2"] ["uwm", "upf"]).2
      1 1 (by decide) (by decide)
    simpa using h

/-- C1: idempotent resume.  Starting from a checkpoint over items [I1, I2] and
variants [V1, V2] in which the keys I1/V1 and I1/V2 are already completed, the
runner attempts exactly the jobs I2/V1 and I2/V2 (in that order), the final
completed set is all four keys, and the adaptations list extends the loaded one
by exactly the two new results: previously committed work is never redone. -/
theorem claim1_idempotent_resume
    (i1 i2 v1 v2 : String) (as0 : List Obj) (fl0 : List String)
    (oracle : String → Option Obj) (r1 r2 : Obj)
    (h21 : keyOf (i2, v1) ∉ ({keyOf (i1, v1), keyOf (i1, v2)} : Finset String))
    (h22 : keyOf (i2, v2) ∉ ({keyOf (i1, v1), keyOf (i1, v2)} : Finset String))
    (hne : keyOf (i2, v1) ≠ keyOf (i2, v2))
    (ho1 : oracle (keyOf (i2, v1)) = some r1)
    (ho2 : oracle (keyOf (i2, v2)) = some r2) :
    attemptedKeys (process_batch oracle (enumJobs [i1, i2] [v1, v2])
        ⟨{keyOf (i1, v1), keyOf (i1, v2)}, as0, fl0, []⟩).trace =
      [keyOf (i2, v1), keyOf (i2, v2)] ∧
    (process_batch oracle (enumJobs [i1, i2] [v1, v2])
        ⟨{keyOf (i1, v1), keyOf (i1, v2)}, as0, fl0, []⟩).completed =
      {keyOf (i1, v1), keyOf (i1, v2), keyOf (i2, v1), keyOf (i2, v2)} ∧
    (process_batch oracle (enumJobs [i1, i2] [v1, v2])
        ⟨{keyOf (i1, v1), keyOf (i1, v2)}, as0, fl0, []⟩).adaptations =
      as0 ++ [r1, r2] := by
  have hjobs : enumJobs [i1, i2] [v1, v2] =
      [(i1, v1), (i1, v2), (i2, v1), (i2, v2)] := by
    simp [enumJobs]
  have h11 : keyOf (i1, v1) ∈ ({keyOf (i1, v1), keyOf (i1, v2)} : Finset String) :=
    Finset.mem_insert_self _ _
  have h12 : keyOf (i1, v2) ∈ ({keyOf (i1, v1), keyOf (i1, v2)} : Finset String) :=
    Finset.mem_insert_of_mem (Finset.mem_singleton_self _)
  have h22c : keyOf (i2, v2) ∉
      insert (keyOf (i2, v1)) ({keyOf (i1, v1), keyOf (i1, v2)} : Finset String) := by
    intro hmem
    rcases Finset.mem_insert.mp hmem with h | h
    · exact hne h.symm
    · exact h22 h
  have hfold : process_batch oracle (enumJobs [i1, i2] [v1, v2])
      ⟨{keyOf (i1, v1), keyOf (i1, v2)}, as0, fl0, []⟩ =
      ⟨insert (keyOf (i2, v2)) (insert (keyOf (i2, v1))
          ({keyOf (i1, v1), keyOf (i1, v2)} : Finset String)),
        (as0 ++ [r1]) ++ [r2], fl0,
        (((([] : List Event) ++ [Event.skipped (keyOf (i1, v1))])
          ++ [Event.skipped (keyOf (i1, v2))])
          ++ [Event.attempt (keyOf (i2, v1)), Event.commit (keyOf (i2, v1)),
              Event.rateDelay])
          ++ [Event.attempt (keyOf (i2, v2)), Event.commit (keyOf (i2, v2)),
              Event.rateDelay]⟩ := by
    rw [hjobs, process_batch_cons, processJob_skip oracle _ _ h11,
        process_batch_cons, processJob_skip oracle _ _ h12,
        process_batch_cons, processJob_success oracle _ _ r1 h21 ho1,
        process_batch_cons, processJob_success oracle _ _ r2 h22c ho2]
    rfl
  rw [hfold]
  refine ⟨?_, ?_, ?_⟩
  · simp [attemptedKeys]
  · show insert (keyOf (i2, v2)) (insert (keyOf (i2, v1))
        ({keyOf (i1, v1), keyOf (i1, v2)} : Finset String)) =
      {keyOf (i1, v1), keyOf (i1, v2), keyOf (i2, v1), keyOf (i2, v2)}
    clear hfold h22c h11 h12 hjobs h21 h22 hne ho1 ho2
    generalize keyOf (i1, v1) = a1
    generalize keyOf (i1, v2) = a2
    generalize keyOf (i2, v1) = a3
    generalize keyOf (i2, v2) = a4
    ext a
    simp only [Finset.mem_insert, Finset.mem_singleton]
    tauto
  · show (as0 ++ [r1]) ++ [r2] = as0 ++ [r1, r2]
    simp

/-- Witness for C1 at concrete keys, results and oracle. -/
theorem claim1_idempotent_resume_witness :
    attemptedKeys (process_batch
        (fun k => if k = "P2_a" then some [("q", "r1")]
                  else if k = "P2_b" then some [("q", "r2")] else none)
        (enumJobs ["P1", "P2"] ["a", "b"])
        ⟨{keyOf ("P1", "a"), keyOf ("P1", "b")}, [], [], []⟩).trace =
      [keyOf ("P2", "a"), keyOf ("P2", "b")] ∧
    (process_batch
        (fun k => if k = "P2_a" then some [("q", "r1")]
                  else if k = "P2_b" then some [("q", "r2")] else none)
        (enumJobs ["P1", "P2"] ["a", "b"])
        ⟨{keyOf ("P1", "a"), keyOf ("P1", "b")}, [], [], []⟩).completed =
      {keyOf ("P1", "a"), keyOf ("P1", "b"), keyOf ("P2", "a"), keyOf ("P2", "b")} ∧
    (process_batch
        (fun k => if k = "P2_a" then some [("q", "r1")]
                  else if k = "P2_b" then some [("q", "r2")] else none)
        (enumJobs ["P1", "P2"] ["a", "b"])
        ⟨{keyOf ("P1", "a"), keyOf ("P1", "b")}, [], [], []⟩).adaptations =
      [] ++ [[("q", "r1")], [("q", "r2")]] := by
  exact claim1_idempotent_resume "P1" "P2" "a" "b" [] []
    (fun k => if k = "P2_a" then some [("q", "r1")]
              else if k = "P2_b" then some [("q", "r2")] else none)
    [("q", "r1")] [("q", "r2")]
    (by decide) (by decide) (by decide)
    (by simp [keyOf]) (by simp [keyOf])

/-! ## C3 helper lemmas: the ProgressRecord invariant -/

theorem processJob_inv (oracle : String → Option Obj) (s : RunState) (key : String)
    (h : Inv s) : Inv (processJob oracle s key) := by
  by_cases hmem : key ∈ s.completed
  · rw [processJob_skip oracle s key hmem]; exact h
  · cases hr : oracle key with
    | some r =>
      rw [processJob_success oracle s key r hmem hr]
      show (insert key s.completed).card = (s.adaptations ++ [r]).length
      rw [Finset.card_insert_of_not_mem hmem, List.length_append]
      simp [Inv] at h
      simp [h]
    | none =>
      rw [processJob_fail oracle s key hmem hr]; exact h

theorem process_batch_inv (oracle : String → Option Obj) (jobs : List (String × String)) :
    ∀ s : RunState, Inv s → Inv (process_batch oracle jobs s) := by
  induction jobs with
  | nil => intro s h; exact h
  | cons j js ih =>
    intro s h
    rw [process_batch_cons]
    exact ih _ (processJob_inv oracle s (keyOf j) h)

theorem processJob_growth (oracle : String → Option Obj) (s : RunState) (key : String) :
    s.completed ⊆ (processJob oracle s key).completed ∧
    ∃ t, (processJob oracle s key).adaptations = s.adaptations ++ t := by
  by_cases hmem : key ∈ s.completed
  · rw [processJob_skip oracle s key hmem]
    exact ⟨Finset.Subset.refl _, [], by simp⟩
  · cases hr : oracle key with
    | some r =>
      rw [processJob_success oracle s key r hmem hr]
      exact ⟨Finset.subset_insert _ _, [r], rfl⟩
    | none =>
      rw [processJob_fail oracle s key hmem hr]
      exact ⟨Finset.Subset.refl _, [], by simp⟩

theorem process_batch_growth (oracle : String → Option Obj)
    (jobs : List (String × String)) :
    ∀ s : RunState, s.completed ⊆ (process_batch oracle jobs s).completed ∧
      ∃ t, (process_batch oracle jobs s).adaptations = s.adaptations ++ t := by
  induction jobs with
  | nil => intro s; exact ⟨Finset.Subset.refl _, [], by simp [process_batch]⟩
  | cons j js ih =>
    intro s
    obtain ⟨hsub1, t1, ht1⟩ := processJob_growth oracle s (keyOf j)
    obtain ⟨hsub2, t2, ht2⟩ := ih (processJob oracle s (keyOf j))
    rw [process_batch_cons]
    refine ⟨Finset.Subset.trans hsub1 hsub2, t1 ++ t2, ?_⟩
    rw [ht2, ht1, List.append_assoc]

/-- C3: the ProgressRecord invariant.  Every step of the runner (skip, commit or
failure) preserves that the completed set has exactly as many keys as the
results list has entries; a whole run preserves it; the completed set and the
results list only grow across a run (the results list is extended, never
rewritten); a commit adds exactly one new key and appends exactly one result;
and the invariant holds after every load: for an absent file, for a file whose
key list is duplicate-free and matches its result list in length, and in
particular for any file produced by save_batch_progress from an invariant
state. -/
theorem claim3_progress_invariant :
    (∀ (oracle : String → Option Obj) (s : RunState) (key : String),
      Inv s → Inv (processJob oracle s key)) ∧
    (∀ (oracle : String → Option Obj) (jobs : List (String × String)) (s : RunState),
      Inv s → Inv (process_batch oracle jobs s)) ∧
    (∀ (oracle : String → Option Obj) (jobs : List (String × String)) (s : RunState),
      s.completed ⊆ (process_batch oracle jobs s).completed ∧
      ∃ t, (process_batch oracle jobs s).adaptations = s.adaptations ++ t) ∧
    (∀ (oracle : String → Option Obj) (s : RunState) (key : String) (r : Obj),
      key ∉ s.completed → oracle key = some r →
      (processJob oracle s key).completed.card = s.completed.card + 1 ∧
      (processJob oracle s key).adaptations = s.adaptations ++ [r] ∧
      key ∈ (processJob oracle s key).completed) ∧
    Inv (load_batch_progress none) ∧
    (∀ (c : List String) (a : List Obj),
      c.Nodup → c.length = a.length → Inv (load_batch_progress (some (c, a)))) ∧
    (∀ s : RunState, Inv s →
      Inv (load_batch_progress (some (save_batch_progress s)))) := by
  refine ⟨processJob_inv, process_batch_inv, process_batch_growth, ?_, ?_, ?_, ?_⟩
  · intro oracle s key r hmem hr
    rw [processJob_success oracle s key r hmem hr]
    refine ⟨?_, rfl, Finset.mem_insert_self _ _⟩
    show (insert key s.completed).card = s.completed.card + 1
    exact Finset.card_insert_of_not_mem hmem
  · show (∅ : Finset String).card = ([] : List Obj).length
    simp
  · intro c a hnd hlen
    show c.toFinset.card = a.length
    rw [List.toFinset_card_of_nodup hnd, hlen]
  · intro s h
    show (s.completed.sort (fun a b => a ≤ b)).toFinset.card = s.adaptations.length
    rw [Finset.sort_toFinset]
    exact h

/-- Witness for C3: the conjuncts with hypotheses, instantiated at a one-commit
step from the empty state and at a concrete loaded file. -/
theorem claim3_progress_invariant_witness :
    Inv (processJob (fun _ => some [("q", "v")]) ⟨∅, [], [], []⟩ "k") ∧
    (processJob (fun _ => some [("q", "v")]) ⟨∅, [], [], []⟩ "k").completed.card = 0 + 1 ∧
    Inv (load_batch_progress (some (["k1"], [[("q", "v")]]))) := by
  refine ⟨?_, ?_, ?_⟩
  · exact claim3_progress_invariant.1 (fun _ => some [("q", "v")]) ⟨∅, [], [], []⟩ "k"
      (by simp [Inv])
  · have h := (claim3_progress_invariant.2.2.2.1 (fun _ => some [("q", "v")])
      ⟨∅, [], [], []⟩ "k" [("q", "v")] (by simp) rfl).1
    simpa using h
  · exact claim3_progress_invariant.2.2.2.2.2.1 ["k1"] [[("q", "v")]]
      (by simp) (by simp)

/-! ## C7 helper lemmas: one rate-limit delay after every attempted job -/

theorem countDelay_append (a b : List Event) :
    countDelay (a ++ b) = countDelay a + countDelay b := by
  simp [countDelay, List.filter_append]

theorem attemptedKeys_append (a b : List Event) :
    attemptedKeys (a ++ b) = attemptedKeys a ++ attemptedKeys b := by
  simp [attemptedKeys, List.filterMap_append]

theorem processJob_block (oracle : String → Option Obj) (s : RunState) (key : String) :
    ∃ b, (processJob oracle s key).trace = s.trace ++ b ∧ isJobBlock b := by
  by_cases hmem : key ∈ s.completed
  · refine ⟨[Event.skipped key], ?_, Or.inl ⟨key, rfl⟩⟩
    rw [processJob_skip oracle s key hmem]
  · cases hr : oracle key with
    | some r =>
      refine ⟨[Event.attempt key, Event.commit key, Event.rateDelay], ?_,
        Or.inr (Or.inl ⟨key, rfl⟩)⟩
      rw [processJob_success oracle s key r hmem hr]
    | none =>
      refine ⟨[Event.attempt key, Event.rateDelay], ?_, Or.inr (Or.inr ⟨key, rfl⟩)⟩
      rw [processJob_fail oracle s key hmem hr]

theorem process_batch_blocks (oracle : String → Option Obj)
    (jobs : List (String × String)) :
    ∀ s : RunState, ∃ blocks : List (List Event),
      (process_batch oracle jobs s).trace = s.trace ++ blocks.flatten ∧
      blocks.length = jobs.length ∧
      ∀ b ∈ blocks, isJobBlock b := by
  induction jobs with
  | nil => intro s; exact ⟨[], by simp [process_batch], rfl, by simp⟩
  | cons j js ih =>
    intro s
    obtain ⟨b, hb, hshape⟩ := processJob_block oracle s (keyOf j)
    obtain ⟨blocks, hbs, hlen, hall⟩ := ih (processJob oracle s (keyOf j))
    refine ⟨b :: blocks, ?_, by simp [hlen], ?_⟩
    · rw [process_batch_cons, hbs, hb]
      simp [List.append_assoc]
    · intro b2 hb2
      rcases List.mem_cons.mp hb2 with h | h
      · rw [h]; exact hshape
      · exact hall _ h

theorem block_counts (b : List Event) (h : isJobBlock b) :
    countDelay b = (attemptedKeys b).length := by
  rcases h with ⟨k, rfl⟩ | ⟨k, rfl⟩ | ⟨k, rfl⟩ <;> simp [countDelay, attemptedKeys]

theorem counts_join (blocks : List (List Event)) (h : ∀ b ∈ blocks, isJobBlock b) :
    countDelay blocks.flatten = (attemptedKeys blocks.flatten).length := by
  induction blocks with
  | nil => simp [countDelay, attemptedKeys]
  | cons b bs ih =>
    have hb := h b (List.mem_cons_self b bs)
    have hbs := ih (fun x hx => h x (List.mem_cons_of_mem b hx))
    rw [List.flatten_cons, countDelay_append, attemptedKeys_append, List.length_append,
      block_counts b hb, hbs]

/-- C7: the rate-limit delay is applied exactly once after every attempted job
and never for a skipped job.  The trace of a run decomposes into one block per
job; each block is either a lone skip event, or an attempt (with or without a
commit) ending in exactly one rateDelay event; a skip block contains no delay;
and globally the number of delay events added by the run equals the number of
attempt events added. -/
theorem claim7_delay_after_every_attempt :
    (∀ (oracle : String → Option Obj) (jobs : List (String × String)) (s0 : RunState),
      ∃ blocks : List (List Event),
        (process_batch oracle jobs s0).trace = s0.trace ++ blocks.flatten ∧
        blocks.length = jobs.length ∧
        (∀ b ∈ blocks, isJobBlock b) ∧
        countDelay (process_batch oracle jobs s0).trace + (attemptedKeys s0.trace).length =
          (attemptedKeys (process_batch oracle jobs s0).trace).length +
            countDelay s0.trace) ∧
    (∀ k, countDelay [Event.skipped k] = 0) ∧
    (∀ k, countDelay [Event.attempt k, Event.commit k, Event.rateDelay] = 1 ∧
      countDelay [Event.attempt k, Event.rateDelay] = 1) := by
  refine ⟨?_, ?_, ?_⟩
  · intro oracle jobs s0
    obtain ⟨blocks, htr, hlen, hall⟩ := process_batch_blocks oracle jobs s0
    refine ⟨blocks, htr, hlen, hall, ?_⟩
    rw [htr, countDelay_append, attemptedKeys_append, List.length_append,
      counts_join blocks hall]
    omega
  · intro k; simp [countDelay]
  · intro k; constructor <;> simp [countDelay]

/-- Witness for C7 at a concrete run: one job attempted (and failing), one
skipped, from a state that already contains the second key. -/
theorem claim7_delay_after_every_attempt_witness :
    ∃ blocks : List (List Event),
      (process_batch (fun _ => none) [("a", "x"), ("b", "y")]
        ⟨{"b_y"}, [], [], []⟩).trace = [] ++ blocks.flatten ∧
      blocks.length = [("a", "x"), ("b", "y")].length ∧
      (∀ b ∈ blocks, isJobBlock b) ∧
      countDelay (process_batch (fun _ => none) [("a", "x"), ("b", "y")]
          ⟨{"b_y"}, [], [], []⟩).trace + (attemptedKeys ([] : List Event)).length =
        (attemptedKeys (process_batch (fun _ => none) [("a", "x"), ("b", "y")]
          ⟨{"b_y"}, [], [], []⟩).trace).length + countDelay ([] : List Event) :=
  (claim7_delay_after_every_attempt.1) (fun _ => none) [("a", "x"), ("b", "y")]
    ⟨{"b_y"}, [], [], []⟩

/-! ## C2 helper lemmas: exponential backoff -/

theorem adapt_go_all_rate (outcomes : Nat → CallOutcome) (c t : String) :
    ∀ (n a d : Nat), (∀ k, k < n → classify (outcomes (a + k)) = AttemptClass.rate) →
    adapt_go outcomes c t n a d =
      ⟨none, (List.range n).map (fun k => min (d * 2 ^ k) MAX_RETRY_DELAY), n⟩ := by
  intro n
  induction n with
  | zero => intro a d _; rfl
  | succ n ih =>
    intro a d h
    have h0 : classify (outcomes a) = AttemptClass.rate := by
      simpa using h 0 (Nat.succ_pos n)
    have hrest : ∀ k, k < n → classify (outcomes (a + 1 + k)) = AttemptClass.rate := by
      intro k hk
      have h2 := h (k + 1) (by omega)
      rw [show a + 1 + k = a + (k + 1) by omega]
      exact h2
    simp only [adapt_go, h0]
    rw [ih (a + 1) (d * 2) hrest]
    have hmap : (List.range (n + 1)).map (fun k => min (d * 2 ^ k) MAX_RETRY_DELAY) =
        min d MAX_RETRY_DELAY ::
          (List.range n).map (fun k => min (d * 2 * 2 ^ k) MAX_RETRY_DELAY) := by
      rw [List.range_succ_eq_map, List.map_cons, List.map_map]
      congr 1
      · rw [pow_zero, mul_one]
      · apply List.map_congr_left
        intro k _
        have : d * 2 ^ (k + 1) = d * 2 * 2 ^ k := by ring
        simp [Function.comp, this]
    rw [hmap]

theorem adapt_go_succ_rate (outcomes : Nat → CallOutcome) (c t : String)
    (n a d : Nat) (h : classify (outcomes a) = AttemptClass.rate) :
    adapt_go outcomes c t (n + 1) a d =
      ⟨(adapt_go outcomes c t n (a + 1) (d * 2)).result,
        min d MAX_RETRY_DELAY :: (adapt_go outcomes c t n (a + 1) (d * 2)).sleeps,
        (adapt_go outcomes c t n (a + 1) (d * 2)).calls + 1⟩ := by
  simp only [adapt_go, h]

/-- C2: exponential backoff for repeated rate-limit failures.  When every call
of a job fails with HTTP 429, the job performs exactly MAX_RETRIES = 5 call
attempts, sleeps min(60 * 2^k, 300) before leaving attempt k — i.e. 60, 120,
240, then clamped at the 300-second cap — and returns None (Failure).  Any job
whose first call is rate-limited waits exactly INITIAL_RETRY_DELAY first: the
backoff state starts fresh for every job.  In the runner, a job whose attempt
returns None is appended to the failed list and the run proceeds with the
remaining jobs. -/
theorem claim2_exponential_backoff :
    (∀ (outcomes : Nat → CallOutcome) (c t : String),
      (∀ k, k < MAX_RETRIES → outcomes k = CallOutcome.httpError 429) →
      adapt_single_vignette outcomes c t = ⟨none, [60, 120, 240, 300, 300], 5⟩ ∧
      [60, 120, 240, 300, 300] =
        (List.range MAX_RETRIES).map
          (fun k => min (INITIAL_RETRY_DELAY * 2 ^ k) MAX_RETRY_DELAY)) ∧
    (∀ (outcomes : Nat → CallOutcome) (c t : String),
      outcomes 0 = CallOutcome.httpError 429 →
      (adapt_single_vignette outcomes c t).sleeps.head? = some INITIAL_RETRY_DELAY) ∧
    (∀ (oracle : String → Option Obj) (j : String × String)
        (js : List (String × String)) (s : RunState),
      keyOf j ∉ s.completed → oracle (keyOf j) = none →
      process_batch oracle (j :: js) s =
        process_batch oracle js
          { s with failed := s.failed ++ [keyOf j]
                   trace := s.trace ++ [Event.attempt (keyOf j), Event.rateDelay] }) := by
  refine ⟨?_, ?_, ?_⟩
  · intro outcomes c t h
    have hc : ∀ k, k < MAX_RETRIES → classify (outcomes (0 + k)) = AttemptClass.rate := by
      intro k hk
      rw [Nat.zero_add, h k hk]
      rfl
    have := adapt_go_all_rate outcomes c t MAX_RETRIES 0 INITIAL_RETRY_DELAY hc
    constructor
    · rw [adapt_single_vignette, this]
      decide
    · decide
  · intro outcomes c t h0
    have hc : classify (outcomes 0) = AttemptClass.rate := by rw [h0]; rfl
    show (adapt_go outcomes c t (4 + 1) 0 60).sleeps.head? = some 60
    rw [adapt_go_succ_rate outcomes c t 4 0 60 hc]
    simp [MAX_RETRY_DELAY]
  · intro oracle j js s hmem hr
    rw [process_batch_cons, processJob_fail oracle s (keyOf j) hmem hr]

/-- Witness for C2: an always-429 oracle, a first-call-429 oracle, and a
concrete failed job followed by the rest of the run. -/
theorem claim2_exponential_backoff_witness :
    adapt_single_vignette (fun _ => CallOutcome.httpError 429) "cat" "ts" =
      ⟨none, [60, 120, 240, 300, 300], 5⟩ ∧
    (adapt_single_vignette (fun _ => CallOutcome.httpError 429) "cat" "ts").sleeps.head? =
      some INITIAL_RETRY_DELAY ∧
    process_batch (fun _ => none) [("a", "x")] ⟨∅, [], [], []⟩ =
      process_batch (fun _ => none) []
        ⟨∅, [], [] ++ [keyOf ("a", "x")],
          [] ++ [Event.attempt (keyOf ("a", "x")), Event.rateDelay]⟩ := by
  refine ⟨?_, ?_, ?_⟩
  · exact (claim2_exponential_backoff.1 (fun _ => CallOutcome.httpError 429) "cat" "ts"
      (fun k _ => rfl)).1
  · exact claim2_exponential_backoff.2.1 (fun _ => CallOutcome.httpError 429) "cat" "ts" rfl
  · exact claim2_exponential_backoff.2.2 (fun _ => none) ("a", "x") [] ⟨∅, [], [], []⟩
      (by simp) rfl

/-! ## C5 helper lemmas: malformed responses are retried, never accepted -/

theorem classify_eq_ok (o : CallOutcome) (r : Obj)
    (h : classify o = AttemptClass.ok r) :
    o = CallOutcome.success r ∧ requiredOk r = true := by
  cases o with
  | success r2 =>
    by_cases hv : requiredOk r2
    · simp only [classify, hv, if_true] at h
      cases h
      exact ⟨rfl, hv⟩
    · simp [classify, hv] at h
  | httpError code =>
    by_cases h429 : code = 429 <;> by_cases h503 : code = 503 <;>
      simp [classify, h429, h503] at h
  | jsonError => simp [classify] at h
  | otherError => simp [classify] at h

theorem adapt_go_result_some (outcomes : Nat → CallOutcome) (c t : String) :
    ∀ (n a d : Nat) (res : Obj), (adapt_go outcomes c t n a d).result = some res →
    ∃ k r, k < n ∧ outcomes (a + k) = CallOutcome.success r ∧ requiredOk r = true ∧
      res = augmentResult r c t := by
  intro n
  induction n with
  | zero => intro a d res h; simp [adapt_go] at h
  | succ n ih =>
    intro a d res h
    cases hc : classify (outcomes a) with
    | ok r =>
      simp only [adapt_go, hc] at h
      obtain ⟨ho, hv⟩ := classify_eq_ok (outcomes a) r hc
      refine ⟨0, r, Nat.succ_pos n, by rwa [Nat.add_zero], hv, ?_⟩
      cases h
      rfl
    | rate =>
      simp only [adapt_go, hc] at h
      obtain ⟨k, r, hk, ho, hv, hres⟩ := ih (a + 1) (d * 2) res h
      refine ⟨k + 1, r, by omega, ?_, hv, hres⟩
      rw [show a + (k + 1) = a + 1 + k by omega]
      exact ho
    | unavail =>
      simp only [adapt_go, hc] at h
      obtain ⟨k, r, hk, ho, hv, hres⟩ := ih (a + 1) d res h
      refine ⟨k + 1, r, by omega, ?_, hv, hres⟩
      rw [show a + (k + 1) = a + 1 + k by omega]
      exact ho
    | httpOther =>
      simp only [adapt_go, hc] at h
      by_cases hn : n = 0
      · rw [if_pos hn] at h
        simp at h
      · rw [if_neg hn] at h
        obtain ⟨k, r, hk, ho, hv, hres⟩ := ih (a + 1) d res h
        refine ⟨k + 1, r, by omega, ?_, hv, hres⟩
        rw [show a + (k + 1) = a + 1 + k by omega]
        exact ho
    | jsonErr =>
      simp only [adapt_go, hc] at h
      by_cases hn : n = 0
      · rw [if_pos hn] at h
        simp at h
      · rw [if_neg hn] at h
        obtain ⟨k, r, hk, ho, hv, hres⟩ := ih (a + 1) d res h
        refine ⟨k + 1, r, by omega, ?_, hv, hres⟩
        rw [show a + (k + 1) = a + 1 + k by omega]
        exact ho
    | generic =>
      simp only [adapt_go, hc] at h
      by_cases hn : n = 0
      · rw [if_pos hn] at h
        simp at h
      · rw [if_neg hn] at h
        obtain ⟨k, r, hk, ho, hv, hres⟩ := ih (a + 1) d res h
        refine ⟨k + 1, r, by omega, ?_, hv, hres⟩
        rw [show a + (k + 1) = a + 1 + k by omega]
        exact ho

theorem adapt_go_all_generic (outcomes : Nat → CallOutcome) (c t : String) :
    ∀ (n a d : Nat), (∀ k, k < n → classify (outcomes (a + k)) = AttemptClass.generic) →
    adapt_go outcomes c t n a d = ⟨none, List.replicate (n - 1) 15, n⟩ := by
  intro n
  induction n with
  | zero => intro a d _; rfl
  | succ n ih =>
    intro a d h
    have h0 : classify (outcomes a) = AttemptClass.generic := by
      simpa using h 0 (Nat.succ_pos n)
    by_cases hn : n = 0
    · subst hn
      simp only [adapt_go, h0, if_pos rfl]
      rfl
    · have hrest : ∀ k, k < n → classify (outcomes (a + 1 + k)) = AttemptClass.generic := by
        intro k hk
        have h2 := h (k + 1) (by omega)
        rw [show a + 1 + k = a + (k + 1) by omega]
        exact h2
      simp only [adapt_go, h0, if_neg hn]
      rw [ih (a + 1) d hrest]
      have h3 : List.replicate n (15 : Nat) = 15 :: List.replicate (n - 1) 15 := by
        conv_lhs => rw [show n = (n - 1) + 1 by omega]
        rw [List.replicate_succ]
      simp only [Nat.add_sub_cancel, h3]

/-- C5: a response that parses but is missing a required field is never accepted.
Such a response is classified into the generic-failure branch (a short fixed
15-second sleep, then retry); any returned Success must come from an attempt
whose response parsed and contained all required fields; a job all of whose
responses are missing required fields performs all 5 attempts, sleeps 15 s
between consecutive attempts, and returns None; and a None outcome commits
nothing: the adaptations list and the completed set are unchanged by that job. -/
theorem claim5_missing_field_never_accepted :
    (∀ r : Obj, requiredOk r = false →
      classify (CallOutcome.success r) = AttemptClass.generic) ∧
    (∀ (outcomes : Nat → CallOutcome) (c t : String) (res : Obj),
      (adapt_single_vignette outcomes c t).result = some res →
      ∃ k r, k < MAX_RETRIES ∧ outcomes k = CallOutcome.success r ∧
        requiredOk r = true ∧ res = augmentResult r c t) ∧
    (∀ (outcomes : Nat → CallOutcome) (c t : String),
      (∀ k, k < MAX_RETRIES →
        ∃ r, outcomes k = CallOutcome.success r ∧ requiredOk r = false) →
      adapt_single_vignette outcomes c t = ⟨none, [15, 15, 15, 15], 5⟩) ∧
    (∀ (oracle : String → Option Obj) (s : RunState) (key : String),
      key ∉ s.completed → oracle key = none →
      (processJob oracle s key).adaptations = s.adaptations ∧
      (processJob oracle s key).completed = s.completed) := by
  refine ⟨?_, ?_, ?_, ?_⟩
  · intro r hv
    simp [classify, hv]
  · intro outcomes c t res h
    obtain ⟨k, r, hk, ho, hv, hres⟩ :=
      adapt_go_result_some outcomes c t MAX_RETRIES 0 INITIAL_RETRY_DELAY res h
    exact ⟨k, r, hk, by rwa [Nat.zero_add] at ho, hv, hres⟩
  · intro outcomes c t h
    have hc : ∀ k, k < MAX_RETRIES → classify (outcomes (0 + k)) = AttemptClass.generic := by
      intro k hk
      obtain ⟨r, hr, hv⟩ := h k hk
      rw [Nat.zero_add, hr]
      simp [classify, hv]
    have := adapt_go_all_generic outcomes c t MAX_RETRIES 0 INITIAL_RETRY_DELAY hc
    rw [adapt_single_vignette, this]
    decide
  · intro oracle s key hmem hr
    rw [processJob_fail oracle s key hmem hr]
    exact ⟨rfl, rfl⟩

/-- Witness for C5: an oracle always answering with a response that has only the
vignette_id field, so every required-field check fails; and a concrete failing
job that commits nothing. -/
theorem claim5_missing_field_never_accepted_witness :
    classify (CallOutcome.success [("vignette_id", "x")]) = AttemptClass.generic ∧
    adapt_single_vignette (fun _ => CallOutcome.success [("vignette_id", "x")])
      "cat" "ts" = ⟨none, [15, 15, 15, 15], 5⟩ ∧
    (processJob (fun _ => none) ⟨∅, [], [], []⟩ "k").adaptations = [] := by
  refine ⟨?_, ?_, ?_⟩
  · exact claim5_missing_field_never_accepted.1 [("vignette_id", "x")] (by decide)
  · exact claim5_missing_field_never_accepted.2.2.1
      (fun _ => CallOutcome.success [("vignette_id", "x")]) "cat" "ts"
      (fun k _ => ⟨[("vignette_id", "x")], rfl, by decide⟩)
  · exact (claim5_missing_field_never_accepted.2.2.2 (fun _ => none) ⟨∅, [], [], []⟩ "k"
      (by simp) rfl).1

/-! ## C9 helper lemmas: metadata augmentation -/

theorem hasKey_setKey_self (r : Obj) (k v : String) : hasKey (setKey r k v) k = true := by
  induction r with
  | nil => simp [setKey, hasKey]
  | cons p rest ih =>
    obtain ⟨k0, v0⟩ := p
    by_cases h : k0 = k
    · simp [setKey, h, hasKey]
    · simp only [setKey, if_neg h, hasKey, List.any_cons]
      simp only [hasKey] at ih
      simp [ih]

theorem hasKey_setKey_other (r : Obj) (k v k2 : String) (h : k2 ≠ k) :
    hasKey (setKey r k v) k2 = hasKey r k2 := by
  induction r with
  | nil =>
    simp [setKey, hasKey]
    exact fun heq => absurd heq.symm h
  | cons p rest ih =>
    obtain ⟨k0, v0⟩ := p
    by_cases hk : k0 = k
    · subst hk
      simp only [setKey, if_pos rfl, hasKey, List.any_cons]
      have : (decide (k0 = k2)) = false := by
        simp
        exact fun heq => h (heq.symm)
      simp [this]
    · simp only [setKey, if_neg hk, hasKey, List.any_cons]
      simp only [hasKey] at ih
      simp [ih]

/-- Counterexample to C9 as stated: a structurally valid response carrying only
the four required fields is accepted, and the metadata augmentation of the runner
adds only category, model and timestamp — no originating-item-id field and no
variant-code field is added or required, so the stored JobResult carries
neither. -/
theorem claim9_counterexample :
    (adapt_single_vignette
        (fun _ => CallOutcome.success
          [("vignette_id", "X"), ("question", "Q"), ("options", "O"), ("answer", "A")])
        "cardio" "T1").result =
      some [("vignette_id", "X"), ("question", "Q"), ("options", "O"), ("answer", "A"),
        ("category", "cardio"), ("model", "gemini-2.0-flash"), ("timestamp", "T1")] ∧
    hasKey [("vignette_id", "X"), ("question", "Q"), ("options", "O"), ("answer", "A"),
        ("category", "cardio"), ("model", "gemini-2.0-flash"), ("timestamp", "T1")]
      "original_vignette_id" = false ∧
    hasKey [("vignette_id", "X"), ("question", "Q"), ("options", "O"), ("answer", "A"),
        ("category", "cardio"), ("model", "gemini-2.0-flash"), ("timestamp", "T1")]
      "variant_type" = false ∧
    keysOf [("vignette_id", "X"), ("question", "Q"), ("options", "O"), ("answer", "A"),
        ("category", "cardio"), ("model", "gemini-2.0-flash"), ("timestamp", "T1")] =
      ["vignette_id", "question", "options", "answer", "category", "model",
        "timestamp"] := by
  refine ⟨?_, by decide, by decide, by decide⟩
  decide

/-- C9 amended: a JobResult is created only on a successful, validated call; the
runner augments it with exactly the category of the source record, the service
identifier (model name) and the completion timestamp, leaving every other key as
the service returned it (the originating item id and variant code are requested
inside the response payload but not added or checked by the runner); and results
already appended are never mutated: each job step only appends to the
adaptations list. -/
theorem claim9_provenance_amended :
    (∀ (outcomes : Nat → CallOutcome) (c t : String) (res : Obj),
      (adapt_single_vignette outcomes c t).result = some res →
      ∃ k r, k < MAX_RETRIES ∧ outcomes k = CallOutcome.success r ∧
        requiredOk r = true ∧ res = augmentResult r c t) ∧
    (∀ (r : Obj) (c t : String),
      hasKey (augmentResult r c t) "category" = true ∧
      hasKey (augmentResult r c t) "model" = true ∧
      hasKey (augmentResult r c t) "timestamp" = true ∧
      ∀ k, k ≠ "category" → k ≠ "model" → k ≠ "timestamp" →
        hasKey (augmentResult r c t) k = hasKey r k) ∧
    (∀ (oracle : String → Option Obj) (s : RunState) (key : String),
      ∃ tl, (processJob oracle s key).adaptations = s.adaptations ++ tl) := by
  refine ⟨?_, ?_, ?_⟩
  · intro outcomes c t res h
    obtain ⟨k, r, hk, ho, hv, hres⟩ :=
      adapt_go_result_some outcomes c t MAX_RETRIES 0 INITIAL_RETRY_DELAY res h
    exact ⟨k, r, hk, by rwa [Nat.zero_add] at ho, hv, hres⟩
  · intro r c t
    refine ⟨?_, ?_, ?_, ?_⟩
    · rw [augmentResult, hasKey_setKey_other _ _ _ _ (by decide),
        hasKey_setKey_other _ _ _ _ (by decide), hasKey_setKey_self]
    · rw [augmentResult, hasKey_setKey_other _ _ _ _ (by decide), hasKey_setKey_self]
    · rw [augmentResult, hasKey_setKey_self]
    · intro k h1 h2 h3
      rw [augmentResult, hasKey_setKey_other _ _ _ _ h3, hasKey_setKey_other _ _ _ _ h2,
        hasKey_setKey_other _ _ _ _ h1]
  · intro oracle s key
    exact (processJob_growth oracle s key).2

/-- Witness for C9 amended: the characterization applied at the concrete
always-valid oracle, and the key facts of the augmentation at a concrete
response object. -/
theorem claim9_provenance_amended_witness :
    (∃ k r, k < MAX_RETRIES ∧
      (fun (_ : Nat) => CallOutcome.success
        [("vignette_id", "X"), ("question", "Q"), ("options", "O"), ("answer", "A")]) k =
        CallOutcome.success r ∧
      requiredOk r = true ∧
      [("vignette_id", "X"), ("question", "Q"), ("options", "O"), ("answer", "A"),
        ("category", "cardio"), ("model", "gemini-2.0-flash"), ("timestamp", "T1")] =
        augmentResult r "cardio" "T1") ∧
    hasKey (augmentResult [("vignette_id", "X")] "cardio" "T1") "model" = true ∧
    hasKey (augmentResult [("vignette_id", "X")] "cardio" "T1") "vignette_id" =
      hasKey [("vignette_id", "X")] "vignette_id" := by
  refine ⟨?_, ?_, ?_⟩
  · exact claim9_provenance_amended.1
      (fun _ => CallOutcome.success
        [("vignette_id", "X"), ("question", "Q"), ("options", "O"), ("answer", "A")])
      "cardio" "T1"
      [("vignette_id", "X"), ("question", "Q"), ("options", "O"), ("answer", "A"),
        ("category", "cardio"), ("model", "gemini-2.0-flash"), ("timestamp", "T1")]
      (by decide)
  · exact (claim9_provenance_amended.2.1 [("vignette_id", "X")] "cardio" "T1").2.1
  · exact (claim9_provenance_amended.2.1 [("vignette_id", "X")] "cardio" "T1").2.2.2
      "vignette_id" (by decide) (by decide) (by decide)

/-! ## C4 helper lemmas: stripping and fence removal -/

theorem lstrip_cons_of_not_ws (c : Char) (s : List Char) (h : pyWS c = false) :
    lstrip (c :: s) = c :: s := by
  rw [lstrip, List.dropWhile_cons, h]
  simp

theorem rstrip_append_of_not_ws (x : List Char) (c : Char) (h : pyWS c = false) :
    rstrip (x ++ [c]) = x ++ [c] := by
  rw [rstrip, List.reverse_append]
  show ((c :: x.reverse).dropWhile pyWS).reverse = x ++ [c]
  rw [List.dropWhile_cons, h]
  simp

theorem rstrip_append_of_ws (x : List Char) (c : Char) (h : pyWS c = true) :
    rstrip (x ++ [c]) = rstrip x := by
  rw [rstrip, rstrip, List.reverse_append]
  show ((c :: x.reverse).dropWhile pyWS).reverse = _
  rw [List.dropWhile_cons, h]
  simp

theorem dropWhile_idem (p : Char → Bool) (s : List Char) :
    (s.dropWhile p).dropWhile p = s.dropWhile p := by
  induction s with
  | nil => rfl
  | cons c s ih =>
    by_cases h : p c
    · rw [List.dropWhile_cons, if_pos h, ih]
    · rw [List.dropWhile_cons, if_neg h, List.dropWhile_cons, if_neg h]

theorem lstrip_idem (s : List Char) : lstrip (lstrip s) = lstrip s := by
  rw [lstrip, lstrip, dropWhile_idem]

theorem rstrip_idem (s : List Char) : rstrip (rstrip s) = rstrip s := by
  rw [rstrip, rstrip, List.reverse_reverse, dropWhile_idem]

theorem rstrip_cons_of_not_ws (c : Char) (s : List Char) (h : pyWS c = false) :
    rstrip (c :: s) = c :: rstrip s := by
  rw [rstrip, rstrip, List.reverse_cons, List.dropWhile_append]
  by_cases he : (s.reverse.dropWhile pyWS).isEmpty
  · rw [if_pos he]
    rw [List.isEmpty_iff] at he
    rw [he]
    rw [List.dropWhile_cons, h]
    simp
  · rw [if_neg he, List.reverse_append]
    simp

theorem lstrip_head_not_ws (s : List Char) (c : Char) (t : List Char)
    (h : lstrip s = c :: t) : pyWS c = false := by
  induction s with
  | nil => simp [lstrip] at h
  | cons a s ih =>
    by_cases ha : pyWS a
    · rw [lstrip, List.dropWhile_cons, if_pos ha] at h
      exact ih h
    · rw [lstrip, List.dropWhile_cons, if_neg ha] at h
      cases h
      simpa using ha

theorem pstrip_idem (s : List Char) : pstrip (pstrip s) = pstrip s := by
  rw [pstrip, pstrip]
  cases hl : lstrip s with
  | nil =>
    have h1 : rstrip ([] : List Char) = [] := rfl
    rw [h1]
    show rstrip (lstrip []) = []
    rfl
  | cons c t =>
    have hc : pyWS c = false := lstrip_head_not_ws s c t hl
    rw [rstrip_cons_of_not_ws c t hc, lstrip_cons_of_not_ws c _ hc,
      ← rstrip_cons_of_not_ws c t hc, rstrip_idem]

theorem lstrip_eq_nil_append (x : List Char) (b : List Char) (h : lstrip x = []) :
    lstrip (x ++ b) = lstrip b := by
  rw [lstrip, List.dropWhile_append]
  rw [lstrip] at h
  rw [h]
  simp [lstrip]

theorem lstrip_ne_nil_append (x : List Char) (b : List Char) (h : ¬ lstrip x = []) :
    lstrip (x ++ b) = lstrip x ++ b := by
  rw [lstrip, List.dropWhile_append]
  rw [lstrip] at h
  rw [if_neg (by simpa [List.isEmpty_iff] using h)]
  rfl

theorem pstrip_append_ws (x : List Char) (c : Char) (h : pyWS c = true) :
    pstrip (x ++ [c]) = pstrip x := by
  rw [pstrip, pstrip]
  by_cases hl : lstrip x = []
  · rw [lstrip_eq_nil_append x [c] hl, hl]
    rw [lstrip, List.dropWhile_cons, if_pos h]
    rfl
  · rw [lstrip_ne_nil_append x [c] hl, rstrip_append_of_ws _ c h]

theorem afterFirstNewline_append (A B : List Char) (h : ('\n' : Char) ∉ A) :
    afterFirstNewline (A ++ ('\n' :: B)) = some B := by
  induction A with
  | nil => simp [afterFirstNewline]
  | cons a A ih =>
    have ha : a ≠ '\n' := fun heq => h (heq ▸ List.mem_cons_self a A)
    rw [List.cons_append, afterFirstNewline, if_neg ha]
    exact ih (fun hm => h (List.mem_cons_of_mem a hm))

theorem isPrefixOf_append_self (l r : List Char) : l.isPrefixOf (l ++ r) = true := by
  induction l with
  | nil => simp [List.isPrefixOf]
  | cons c l ih => simp [List.isPrefixOf, ih]

theorem containsSub_append_tick (X : List Char) : containsSub tick3 (X ++ tick3) = true := by
  induction X with
  | nil =>
    show containsSub tick3 tick3 = true
    decide
  | cons x X ih =>
    rw [List.cons_append, containsSub, ih]
    simp

theorem dropThroughFirst_of_isPrefixOf (pat s : List Char) (h : pat.isPrefixOf s = true) :
    dropThroughFirst pat s = some (s.drop pat.length) := by
  cases s with
  | nil =>
    cases pat with
    | nil => rfl
    | cons p ps => simp [List.isPrefixOf] at h
  | cons c rest => simp [dropThroughFirst, h]

theorem rsplitBefore_append_tick (X : List Char) : rsplitBefore tick3 (X ++ tick3) = X := by
  have htick : tick3.reverse = tick3 := by decide
  have h1 : dropThroughFirst tick3.reverse (X ++ tick3).reverse = some X.reverse := by
    rw [htick, List.reverse_append, htick,
      dropThroughFirst_of_isPrefixOf tick3 (tick3 ++ X.reverse)
        (isPrefixOf_append_self _ _),
      List.drop_left]
  rw [rsplitBefore, h1]
  simp

theorem wrapFenced_eq_append (tag P : List Char) :
    wrapFenced tag P = (tick3 ++ tag ++ ('\n' :: (P ++ ['\n']))) ++ tick3 := by
  simp [wrapFenced, List.append_assoc]

theorem pstrip_wrap (tag P : List Char) :
    pstrip (wrapFenced tag P) = wrapFenced tag P := by
  have hl : lstrip (wrapFenced tag P) = wrapFenced tag P := by
    have hw : wrapFenced tag P =
        btick :: (btick :: btick :: (tag ++ ('\n' :: (P ++ ('\n' :: tick3))))) := rfl
    rw [hw, lstrip_cons_of_not_ws _ _ (by decide)]
  have hr : rstrip (wrapFenced tag P) = wrapFenced tag P := by
    have hsplit : wrapFenced tag P =
        ((tick3 ++ tag ++ ('\n' :: (P ++ ['\n']))) ++ [btick, btick]) ++ [btick] := by
      rw [wrapFenced_eq_append]
      simp [tick3, List.append_assoc]
    rw [hsplit, rstrip_append_of_not_ws _ _ (by decide)]
  rw [pstrip, hl, hr]

theorem extract_json_wrap (tag P : List Char) (htag : ('\n' : Char) ∉ tag) :
    extract_json (wrapFenced tag P) = pstrip P := by
  have hpre : tick3.isPrefixOf (pstrip (wrapFenced tag P)) = true := by
    rw [pstrip_wrap, wrapFenced]
    exact isPrefixOf_append_self tick3 _
  have hafter : afterFirstNewline (pstrip (wrapFenced tag P)) =
      some (P ++ ('\n' :: tick3)) := by
    rw [pstrip_wrap]
    have hw : wrapFenced tag P = (tick3 ++ tag) ++ ('\n' :: (P ++ ('\n' :: tick3))) := by
      rw [wrapFenced, List.append_assoc]
    rw [hw]
    apply afterFirstNewline_append
    intro hm
    rcases List.mem_append.mp hm with h | h
    · revert h; decide
    · exact htag h
  have hbody : (P ++ ('\n' :: tick3)) = (P ++ ['\n']) ++ tick3 := by
    simp [List.append_assoc]
  rw [extract_json]
  simp only [hpre, if_true, hafter]
  rw [hbody, containsSub_append_tick (P ++ ['\n'])]
  simp only [if_true]
  rw [rsplitBefore_append_tick (P ++ ['\n']), pstrip_append_ws P '\n' (by decide)]

theorem extract_json_plain (P : List Char)
    (h : tick3.isPrefixOf (pstrip P) = false) : extract_json P = pstrip P := by
  rw [extract_json]
  simp only [h]
  simp only [Bool.false_eq_true, if_false]
  exact pstrip_idem P

/-- C4: fenced-wrapper round trip.  For every payload P whose stripped form does
not itself begin with a code fence (true of any JSON value) and every language
tag without a newline, extracting from P wrapped in a fenced code block yields
exactly the same text as extracting from P unwrapped, so the subsequent
json.loads receives identical input: extract_json strips the optional fence
before parsing. -/
theorem claim4_fence_roundtrip :
    ∀ (tag P : List Char), ('\n' : Char) ∉ tag →
      tick3.isPrefixOf (pstrip P) = false →
      extract_json (wrapFenced tag P) = extract_json P := by
  intro tag P htag hP
  rw [extract_json_wrap tag P htag, extract_json_plain P hP]

/-- Witness for C4: the JSON-like payload [1] wrapped in a json-tagged fence. -/
theorem claim4_fence_roundtrip_witness :
    (('\n' : Char) ∉ ['j', 's', 'o', 'n']) ∧
    tick3.isPrefixOf (pstrip ['[', '1', ']']) = false ∧
    extract_json (wrapFenced ['j', 's', 'o', 'n'] ['[', '1', ']']) =
      extract_json ['[', '1', ']'] := by
  refine ⟨by decide, by decide, ?_⟩
  exact claim4_fence_roundtrip ['j', 's', 'o', 'n'] ['[', '1', ']']
    (by decide) (by decide)

/-! ## C8 and C10 helper lemmas: the merge pass -/

theorem merge_foldl (files : Nat → Option (List Obj)) :
    ∀ (bs : List Nat) (acc : List Obj) (miss : List Nat),
      bs.foldl
        (fun (p : List Obj × List Nat) b =>
          match files b with
          | some l => (p.1 ++ l, p.2)
          | none => (p.1, p.2 ++ [b])) (acc, miss) =
      (acc ++ (bs.filterMap files).flatten,
        miss ++ bs.filter (fun b => (files b).isNone)) := by
  intro bs
  induction bs with
  | nil => intro acc miss; simp
  | cons b bs ih =>
    intro acc miss
    cases hf : files b with
    | some l =>
      rw [List.foldl_cons]
      simp only [hf]
      rw [ih (acc ++ l) miss, List.filterMap_cons, List.filter_cons]
      simp [hf, List.append_assoc]
    | none =>
      rw [List.foldl_cons]
      simp only [hf]
      rw [ih acc (miss ++ [b]), List.filterMap_cons, List.filter_cons]
      simp [hf, List.append_assoc]

theorem merge_merged_eq (files : Nat → Option (List Obj)) (bs : List Nat) :
    (merge_all_batches files bs).merged = (bs.filterMap files).flatten ∧
    (merge_all_batches files bs).missing = bs.filter (fun b => (files b).isNone) := by
  rw [merge_all_batches, merge_foldl files bs [] []]
  exact ⟨by simp, by simp⟩

/-- C8: merge correctness.  The merged collection is the concatenation, in
batch-declaration order, of the present batch output files; its size is the sum
of their sizes; the missing list reports exactly the batches whose output file
is absent (the merge is not aborted by them, and they contribute nothing); and
for the three declared batches all present with sizes s1, s2, s3, the result is
their concatenation of size s1 + s2 + s3. -/
theorem claim8_merge_concatenation :
    (∀ (files : Nat → Option (List Obj)) (batches : List Nat),
      (merge_all_batches files batches).merged = (batches.filterMap files).flatten ∧
      (merge_all_batches files batches).merged.length =
        ((batches.filterMap files).map List.length).sum ∧
      (merge_all_batches files batches).missing =
        batches.filter (fun b => (files b).isNone)) ∧
    (∀ (files : Nat → Option (List Obj)) (l1 l2 l3 : List Obj),
      files 1 = some l1 → files 2 = some l2 → files 3 = some l3 →
      (merge_all_batches files BATCH_KEYS).merged = l1 ++ (l2 ++ l3) ∧
      (merge_all_batches files BATCH_KEYS).merged.length =
        l1.length + l2.length + l3.length) := by
  constructor
  · intro files batches
    obtain ⟨h1, h2⟩ := merge_merged_eq files batches
    exact ⟨h1, by rw [h1, List.length_flatten], h2⟩
  · intro files l1 l2 l3 hf1 hf2 hf3
    have h1 := (merge_merged_eq files BATCH_KEYS).1
    have hfm : BATCH_KEYS.filterMap files = [l1, l2, l3] := by
      show ((1 : Nat) :: 2 :: 3 :: []).filterMap files = [l1, l2, l3]
      rw [List.filterMap_cons, List.filterMap_cons, List.filterMap_cons]
      simp [hf1, hf2, hf3]
    constructor
    · rw [h1, hfm]
      simp
    · rw [h1, hfm]
      simp [Nat.add_assoc]

/-- Witness for C8: three present batches of sizes 1, 0 and 2 merge into a
collection of size 3 in batch order. -/
theorem claim8_merge_concatenation_witness :
    (merge_all_batches
      (fun b => if b = 1 then some [[("a", "1")]]
                else if b = 2 then some []
                else if b = 3 then some [[("b", "2")], [("c", "3")]] else none)
      BATCH_KEYS).merged =
      [[("a", "1")]] ++ ([] ++ [[("b", "2")], [("c", "3")]]) ∧
    (merge_all_batches
      (fun b => if b = 1 then some [[("a", "1")]]
                else if b = 2 then some []
                else if b = 3 then some [[("b", "2")], [("c", "3")]] else none)
      BATCH_KEYS).merged.length = 1 + 0 + 2 := by
  exact claim8_merge_concatenation.2
    (fun b => if b = 1 then some [[("a", "1")]]
              else if b = 2 then some []
              else if b = 3 then some [[("b", "2")], [("c", "3")]] else none)
    [[("a", "1")]] [] [[("b", "2")], [("c", "3")]] rfl rfl rfl

/-- C10: the merged output file and the merge manifest are written if and only
if at least one declared batch has a present output file containing at least one
record; in particular when no batch output exists (or all are empty) nothing is
written. -/
theorem claim10_merge_write_guard :
    ∀ (files : Nat → Option (List Obj)),
      ((merge_all_batches files BATCH_KEYS).wrote = true ↔
        ∃ b ∈ BATCH_KEYS, ∃ l, files b = some l ∧ l ≠ []) ∧
      ((∀ b ∈ BATCH_KEYS, files b = none) →
        (merge_all_batches files BATCH_KEYS).wrote = false) := by
  intro files
  have hmerged := (merge_merged_eq files BATCH_KEYS).1
  have hwrote : (merge_all_batches files BATCH_KEYS).wrote =
      !(merge_all_batches files BATCH_KEYS).merged.isEmpty := by
    rw [merge_all_batches]
  have hiff : (merge_all_batches files BATCH_KEYS).wrote = true ↔
      ∃ b ∈ BATCH_KEYS, ∃ l, files b = some l ∧ l ≠ [] := by
    rw [hwrote, hmerged]
    rw [Bool.not_eq_true']
    rw [← Bool.not_eq_true]
    rw [List.isEmpty_iff]
    constructor
    · intro hne
      have : ¬ ∀ l ∈ BATCH_KEYS.filterMap files, l = [] := by
        intro hall
        exact hne (List.flatten_eq_nil_iff.mpr hall)
      push_neg at this
      obtain ⟨l, hl, hlne⟩ := this
      obtain ⟨b, hb, hfb⟩ := List.mem_filterMap.mp hl
      exact ⟨b, hb, l, hfb, hlne⟩
    · intro ⟨b, hb, l, hfb, hlne⟩
      intro hnil
      have := List.flatten_eq_nil_iff.mp hnil l
        (List.mem_filterMap.mpr ⟨b, hb, hfb⟩)
      exact hlne this
  refine ⟨hiff, ?_⟩
  intro hall
  cases hw : (merge_all_batches files BATCH_KEYS).wrote with
  | false => rfl
  | true =>
    obtain ⟨b, hb, l, hfb, _⟩ := hiff.mp hw
    rw [hall b hb] at hfb
    cases hfb

/-- Witness for C10: with no batch output present, nothing is written. -/
theorem claim10_merge_write_guard_witness :
    (merge_all_batches (fun _ => none) BATCH_KEYS).wrote = false :=
  (claim10_merge_write_guard (fun _ => none)).2 (fun _ _ => rfl)

end BanglaAdapt
